import Mathlib

/-!
Verification of the "text discovery" core of the repository: the dictionary
trie of `docs/text-discovery/words.js` and the grid / seeder / spotlight
scanner / capture state machine of `docs/text-discovery/main.js`.

Shallow-embedding conventions used throughout:

* JS numbers are modelled as `ℚ` (all quantities involved — coordinates,
  times, fade fractions, rng outputs — are exact small rationals in every
  statement below, so no floating-point rounding is observable).
* The session rng (`createMulberry32`) is a sealed pseudo-random stream; each
  of its draws is modelled as an oracle value passed in as a parameter (a `ℚ`
  argument, or a `List ℚ` stream for loops that draw repeatedly).  Draws of
  the real rng lie in `[0,1)`.
* `prefs.js` of the sketch supplies opaque configuration constants (the spec's
  "configuration contract"); it is modelled as a `Prefs` record carried by the
  world, quantified over in the theorems.
* The module constant `DICTIONARY` is imported by `main.js`; the world record
  carries it as the field `dict` (the spec's "dictionary contract"), and the
  concrete list of `words.js` is the constant `DICTIONARY` below.
* Mutation of the world object becomes explicit state passing: every system
  function takes a `World` and returns the updated `World`.
-/

set_option maxRecDepth 8000

namespace TextDiscovery

/-- Source `clamp(v, lo, hi) = Math.max(lo, Math.min(hi, v))` (main.js:13). -/
def clampQ (v lo hi : ℚ) : ℚ := max lo (min hi v)

/-- Source `randBetween(rng, a, b) = a + (b - a) * rng()` (main.js:17); `q`
stands for the value the source draws from the rng stream at this point. -/
def randBetween (a b q : ℚ) : ℚ := a + (b - a) * q

/-- Floor `Math.floor(q)` of an index computation `Math.floor(rng() * n)`; the rng
draws lie in `[0,1)`, so the floor is nonnegative whenever it is used. -/
def ratFloorNat (q : ℚ) : Nat := (⌊q⌋ : Int).toNat

/-- Word orientation, the source strings `'H'` and `'V'`. -/
inductive Dir where
  | H
  | V
deriving DecidableEq

/-- Trie node (words.js:23-35): `{ t: Bool, c: children }` where `c` is an
insertion-ordered map from characters to child nodes. -/
inductive Trie where
  | mk (t : Bool) (c : List (Char × Trie)) : Trie

/-- Complete-word flag `node.t`. -/
def Trie.t : Trie → Bool
  | .mk b _ => b

/-- Children map `node.c`. -/
def Trie.c : Trie → List (Char × Trie)
  | .mk _ ch => ch

/-- Property read `node.c[ch]`: first binding for `ch`, if any. -/
def childGet : List (Char × Trie) → Char → Option Trie
  | [], _ => none
  | (c, t) :: rest, ch => if c = ch then some t else childGet rest ch

/-- Property write `node.c[ch] = nt`: replaces the existing binding in place
or appends a new one (JS object property order). -/
def childSet : List (Char × Trie) → Char → Trie → List (Char × Trie)
  | [], ch, nt => [(ch, nt)]
  | (c, t) :: rest, ch, nt =>
      if c = ch then (ch, nt) :: rest else (c, t) :: childSet rest ch nt

/-- One iteration of `buildTrie`'s outer loop (words.js:26-32): walk the
word's characters, creating missing children with `{ t: false, c: {} }`, and
set `t = true` on the final node. -/
def insertW : List Char → Trie → Trie
  | [], .mk _ ch => .mk true ch
  | c0 :: rest, .mk b ch =>
      .mk b (childSet ch c0 (insertW rest ((childGet ch c0).getD (.mk false []))))

/-- Source `buildTrie(words)` (words.js:23-35): fold the insertions over the
word list, starting from the empty root. -/
def buildTrie (words : List String) : Trie :=
  words.foldl (fun tr w => insertW w.toList tr) (.mk false [])

/-- Incremental walk from a node along a character sequence: `node = node.c[ch]`
at each step, `none` as soon as a child is missing. -/
def walkT : Trie → List Char → Option Trie
  | node, [] => some node
  | node, ch :: rest =>
      match childGet node.c ch with
      | none => none
      | some n => walkT n rest

/-- The walk from `tr` along `cs` succeeds and ends at a node whose
complete-word flag is set. -/
def termB (tr : Trie) (cs : List Char) : Bool :=
  match walkT tr cs with
  | some n => n.t
  | none => false

/-- Source constant `DICTIONARY` (words.js:4-8). -/
def DICTIONARY : List String :=
  ["mind","share","thought","word","soup","circle","red","light","blur","find",
   "idea","dream","story","letter","phase","float","jitter","shift","fade","hold",
   "time","space","sense","look","seek","play","game","craft","build","change"]

/-- Source `chooseWord(rng, minLen, maxLen)` (words.js:13-18), generalized over
the dictionary it reads (the source reads the module constant `DICTIONARY`).
`q` is the rng draw.  The array read `source[idx]` yields `undefined` for an
out-of-range index, modelled by `Option`. -/
def chooseWordFrom (dict : List String) (q : ℚ) (minLen maxLen : Nat) : Option String :=
  let filtered := dict.filter fun w => decide (minLen ≤ w.length) && decide (w.length ≤ maxLen)
  let source := if filtered.isEmpty then dict else filtered
  let i : Int := ⌊q * source.length⌋
  if i < 0 then none else source.get? i.toNat

/-- Source `chooseWord` applied to the source's own dictionary. -/
def chooseWord (q : ℚ) (minLen maxLen : Nat) : Option String :=
  chooseWordFrom DICTIONARY q minLen maxLen

/-- A cell reference produced while scanning a line (main.js:342 pushes
`{ r, c, idx, ch }` into the current segment). -/
structure SCell where
  r : Nat
  c : Nat
  idx : Nat
  ch : Char
deriving DecidableEq

/-- Default scan cell, used only for total `headD`/`getD` reads. -/
def dSC : SCell := ⟨0, 0, 0, 'a'⟩

/-- A scanner candidate (main.js:361 pushes `{ word, r, c, dir, cells }`). -/
structure Cand where
  word : String
  r : Nat
  c : Nat
  dir : Dir
  cells : List SCell
deriving DecidableEq

/-- The candidate object `scanSegmentWithTrie` pushes for the consumed cells
`cs`: the accumulated word string, the starting coordinates (first consumed
cell), the orientation from comparing first and last row, and the cell slice. -/
def mkCand (cs : List SCell) : Cand :=
  { word := ⟨cs.map (·.ch)⟩,
    r := (cs.headD dSC).r,
    c := (cs.headD dSC).c,
    dir := if (cs.headD dSC).r = (cs.getLastD dSC).r then .H else .V,
    cells := cs }

/-- Inner loop of `scanSegmentWithTrie` (main.js:352-363): walk the trie from
`node` along the remaining cells (`acc` holds the cells consumed so far from
the starting offset), emitting a candidate at every node whose complete-word
flag is set, and stopping at the first missing child. -/
def walkScan (node : Trie) (acc : List SCell) : List SCell → List Cand
  | [] => []
  | s :: rest =>
      match childGet node.c s.ch with
      | none => []
      | some n =>
          (if n.t then [mkCand (acc ++ [s])] else []) ++ walkScan n (acc ++ [s]) rest

/-- Source `scanSegmentWithTrie(seg, trie, out)` (main.js:350-365): start a
trie walk at every offset of the segment; candidates are listed in push order
(starting offsets ascending, end offsets ascending within an offset). -/
def scanSegmentWithTrie (tr : Trie) : List SCell → List Cand
  | [] => []
  | s :: rest => walkScan tr [] (s :: rest) ++ scanSegmentWithTrie tr rest

/-- Loop body of `scanLine` (main.js:331-348) over the cells of one line,
left to right.  The source's outer `while` builds the maximal run `seg` of
consecutive included cells, scans it, skips the non-included cell that ended
the run, and continues; `cur` makes the in-progress run explicit, flushed at
each non-included cell (which the source then skips) and at end of line.
`incA` is the `include` array, read at the cell's grid index. -/
def scanLineAux (tr : Trie) (incA : List Bool) : List SCell → List SCell → List Cand
  | cur, [] => scanSegmentWithTrie tr cur
  | cur, x :: xs =>
      if incA.getD x.idx false then scanLineAux tr incA (cur ++ [x]) xs
      else scanSegmentWithTrie tr cur ++ scanLineAux tr incA [] xs

/-- Source `scanLine(world, include, rStart, 0, 0, 1, out)` for a horizontal
scan of one row: the normalization preamble is a no-op (the call starts at
column 0), leaving the run-building loop `scanLineAux` starting from an empty
run. -/
def scanLine (tr : Trie) (incA : List Bool) (l : List SCell) : List Cand :=
  scanLineAux tr incA [] l

/-- One letter cell of the world grid (main.js:69-71, 103-110).  `nextChar`
is the staged character `_nextChar` (absent modelled as `none`). -/
structure Cell where
  x : ℚ
  y : ℚ
  char : Char
  phase : ℚ
  speed : ℚ
  jitterSeed : ℚ
  fadeT : ℚ
  fadeDir : Int
  nextAt : ℚ
  locked : Bool
  nextChar : Option Char
deriving DecidableEq

/-- Default cell, used only for total `getD` reads. -/
def dCell : Cell := ⟨0, 0, 'a', 0, 0, 0, 1, 0, 0, false, none⟩

/-- Pointer state (main.js:129). -/
structure Mouse where
  x : ℚ
  y : ℚ
  down : Bool
deriving DecidableEq

/-- Capture state (main.js:123-128 plus the `key` field set in
`updateCapture`). -/
structure Capture where
  active : Bool
  startMs : ℚ
  wordUnderSpot : Option Cand
  key : String
  progress01 : ℚ
deriving DecidableEq

/-- A cell reference of a placed word (main.js:220 pushes `{ r, c, idx }`). -/
structure PCell where
  r : Nat
  c : Nat
  idx : Nat
deriving DecidableEq

/-- An active placed word (main.js:222 pushes `{ word, r, c, dir, cells }`). -/
structure PlacedWord where
  word : String
  r : Nat
  c : Nat
  dir : Dir
  cells : List PCell
deriving DecidableEq

/-- Default placed word, used only for total `getD` reads. -/
def dPW : PlacedWord := ⟨"", 0, 0, .H, []⟩

/-- The configuration constants of `prefs.js` consulted by the embedded
systems (the spec's configuration contract); `fadeDurLo`/`fadeDurHi` are the
two entries of `fadeDurationRangeSec`. -/
structure Prefs where
  minWordLength : Nat
  maxWordLength : Nat
  holdToCaptureSeconds : ℚ
  maxSentenceWords : Nat
  detectionAlphaThreshold : ℚ
  spotlightRadiusPx : ℚ
  changeProbabilityPerCycle : ℚ
  fadeDurLo : ℚ
  fadeDurHi : ℚ
deriving DecidableEq

/-- The world model (main.js:117-132).  `rows`/`cols` are the grid shape (the
grid's pixel metrics live in the cells' anchor coordinates); `dict` is the
imported `DICTIONARY`; render-only debug fields are omitted. -/
structure World where
  rows : Nat
  cols : Nat
  cells : List Cell
  words : List PlacedWord
  sentence : List String
  capture : Capture
  mouse : Mouse
  trie : Trie
  dict : List String
  prefs : Prefs

/-- Inclusion test of `wordUnderSpotlight` (main.js:296-308): the cell's
stable center is inside the spotlight circle and its alpha is at least the
detection threshold. -/
def includeCell (w : World) (cell : Cell) : Bool :=
  decide ((cell.x - w.mouse.x) * (cell.x - w.mouse.x) +
      (cell.y - w.mouse.y) * (cell.y - w.mouse.y) ≤
      w.prefs.spotlightRadiusPx * w.prefs.spotlightRadiusPx) &&
  decide (w.prefs.detectionAlphaThreshold ≤ clampQ cell.fadeT 0 1)

/-- The `include` array indexed by `getCellIndex` (main.js:298-309). -/
def includeArr (w : World) : List Bool := w.cells.map (includeCell w)

/-- The cells of row `r` in column order, as scanned by the horizontal pass
(chars read through `world.cells[idx].char`). -/
def rowSeg (w : World) (r : Nat) : List SCell :=
  (List.range w.cols).map fun c =>
    { r := r, c := c, idx := r * w.cols + c,
      ch := (w.cells.getD (r * w.cols + c) dCell).char }

/-- The `candidates` list of `wordUnderSpotlight` before length filtering
(main.js:311-315): one horizontal `scanLine` per row, results concatenated in
row order.  The source comments this restriction: `Horizontal only
(simplified for stability)`. -/
def spotCandidates (w : World) : List Cand :=
  ((List.range w.rows).map fun r => scanLine w.trie (includeArr w) (rowSeg w r)).flatten

/-- The length filter of main.js:318. -/
def lenOK (p : Prefs) (c : Cand) : Bool :=
  decide (p.minWordLength ≤ c.word.length) && decide (c.word.length ≤ p.maxWordLength)

/-- Source `wordUnderSpotlight(world)` (main.js:291-329).  `q` is the rng
draw used for the tie break.  The source's stable sort by descending length
followed by taking the group of maximal length is expressed directly as
filtering the filtered list to the maximal length (same contents, same
relative order); an out-of-range tie-break index would make the JS `chosen`
`undefined`, i.e. no candidate.  The debug-panel instrumentation is
render-only and omitted. -/
def wordUnderSpotlight (w : World) (q : ℚ) : Option Cand :=
  let candidates := spotCandidates w
  let filtered := candidates.filter (lenOK w.prefs)
  if filtered.isEmpty then none
  else
    let longestLen := (filtered.map fun c => c.word.length).foldl max 0
    let longest := filtered.filter fun c => decide (c.word.length = longestLen)
    let i : Int := ⌊q * longest.length⌋
    if i < 0 then none else longest.get? i.toNat

/-- Source `candidateKey(c)` (main.js:367-371). -/
def candidateKey : Option Cand → String
  | none => ""
  | some c => c.word ++ ":" ++ String.intercalate "-" (c.cells.map fun p => Nat.repr p.idx)

/-- The sentence update of `finalizeCapture` (main.js:412-413): push the
word, then shift off the oldest entry if the cap is exceeded. -/
def pushSentence (cap : Nat) (s : List String) (w : String) : List String :=
  let s2 := s ++ [w]
  if cap < s2.length then s2.tail else s2

/-- Source `finalizeCapture(world, wordObj)` (main.js:404-417): unlock and
fade out every cell of the captured candidate, append the word to the capped
sentence.  The removal step `world.words.indexOf(wordObj)` compares `wordObj`
— the frozen scanner candidate, an object freshly allocated by the
`out.push({ word, r, c, dir, cells })` of `scanSegmentWithTrie` and never
inserted into `world.words` (whose elements are the objects allocated in
`seedOneWord`) — against the placed-word objects with JS strict equality,
which for objects is reference identity; the search therefore always returns
`-1` and the `splice` never executes, so the embedding leaves `words`
unchanged.  This mismatch with the function's own comment (`Remove word from
active list so it can be re-seeded later`) is surfaced by the capture
theorems below. -/
def finalizeCapture (w : World) (wordObj : Cand) : World :=
  let cells2 := wordObj.cells.foldl (fun cs p =>
    match cs.get? p.idx with
    | none => cs
    | some cell => cs.set p.idx { cell with locked := false, fadeDir := -1, nextChar := none })
    w.cells
  { w with cells := cells2,
           sentence := pushSentence w.prefs.maxSentenceWords w.sentence wordObj.word }

/-- Source `updateCapture(world, dt)` (main.js:373-402).  `now` stands for
`performance.now()` during this frame and `q` for the rng draw consumed by
the scanner's tie break.  In the commit branch the source passes
`world.capture.wordUnderSpot` to `finalizeCapture`; that branch is reached
only while a capture is active, where the source always holds a non-null
frozen candidate (a null one would make the JS throw), modelled by matching
on the option. -/
def updateCapture (w : World) (now q : ℚ) : World :=
  let detected := wordUnderSpotlight w q
  let current :=
    if w.capture.active = true ∧ w.capture.wordUnderSpot.isSome then w.capture.wordUnderSpot
    else detected
  let currentKey := candidateKey current
  if w.mouse.down = true ∧ current.isSome then
    if w.capture.active = false ∨ w.capture.key ≠ currentKey then
      { w with capture :=
          { active := true, startMs := now, wordUnderSpot := current,
            key := currentKey, progress01 := 0 } }
    else
      let prog := clampQ ((now - w.capture.startMs) /
        (w.prefs.holdToCaptureSeconds * 1000)) 0 1
      if 1 ≤ prog then
        let w2 :=
          match w.capture.wordUnderSpot with
          | some wo => finalizeCapture w wo
          | none => w
        { w2 with capture :=
            { active := false, startMs := w2.capture.startMs, wordUnderSpot := none,
              key := "", progress01 := 0 } }
      else
        { w with capture := { w.capture with progress01 := prog } }
  else
    { w with capture :=
        { w.capture with active := false, wordUnderSpot := none, key := "", progress01 := 0 } }

/-- Grid characters of the 3x3 counterexample world: rows `rzz`, `ezz`,
`dzz`, so column 0 spells the dictionary word `red` vertically while no row
contains any dictionary word. -/
def cwChars : List Char := "rzzezzdzz".toList

/-- A 3x3 world whose cells are all steady, fully visible, and inside the
spotlight (radius 1000 around the pointer), with the dictionary word `red`
written vertically in column 0.  Cell anchors follow the grid layout
(`x = 10*col`, `y = 10*row`). -/
def CW : World :=
  { rows := 3, cols := 3,
    cells := (List.range 9).map fun i =>
      { dCell with
          x := 10 * ((i % 3 : Nat) : ℚ),
          y := 10 * ((i / 3 : Nat) : ℚ),
          char := cwChars.getD i 'z' },
    words := [], sentence := [],
    capture := ⟨false, 0, none, "", 0⟩,
    mouse := ⟨0, 0, false⟩,
    trie := buildTrie DICTIONARY,
    dict := DICTIONARY,
    prefs := ⟨3, 7, 1, 6, 1/2, 1000, 0, 1, 1⟩ }

/-- One rng draw from an explicit stream: the head (the source rng never
runs dry; the traces below supply streams long enough) and the rest. -/
def drawQ (rs : List ℚ) : ℚ × List ℚ := (rs.headD 0, rs.tail)

/-- Source `placementFree(world, r, c, len, dir)` (main.js:253-269): every
cell of the run must exist and be unlocked (the source returns false on
`!cell || cell.locked`). -/
def placementFree (w : World) (r c len : Nat) (dir : Dir) : Bool :=
  (List.range len).all fun i =>
    let idx :=
      match dir with
      | .H => r * w.cols + (c + i)
      | .V => (r + i) * w.cols + c
    match w.cells.get? idx with
    | none => false
    | some cell => !cell.locked

/-- Per-cell staging of `seedOneWord` (main.js:211-219, 235-243): an unlocked
cell begins a fade-out with the word letter staged; a locked cell swaps
immediately; both end locked. -/
def stageCell (cell : Cell) (ch : Char) : Cell :=
  if cell.locked = false then
    { cell with fadeDir := -1, nextChar := some ch, locked := true }
  else
    { cell with char := ch, fadeDir := 0, fadeT := 1, locked := true }

/-- The committed placement of `seedOneWord` once `placementFree` holds:
stage every cell of the run and push the placed word. -/
def placeWord (w : World) (word : String) (r c : Nat) (dir : Dir) : World :=
  let len := word.length
  let idxAt : Nat → Nat := fun i =>
    match dir with
    | .H => r * w.cols + (c + i)
    | .V => (r + i) * w.cols + c
  let cells2 := (List.range len).foldl (fun cs i =>
    match cs.get? (idxAt i) with
    | none => cs
    | some cell => cs.set (idxAt i) (stageCell cell (word.toList.getD i 'a'))) w.cells
  let refs := (List.range len).map fun i =>
    match dir with
    | .H => (⟨r, c + i, idxAt i⟩ : PCell)
    | .V => ⟨r + i, c, idxAt i⟩
  { w with cells := cells2, words := w.words ++ [⟨word, r, c, dir, refs⟩] }

/-- The retry loop of `seedOneWord` (main.js:196-249), `attempts = 40`; each
attempt draws the orientation and the start coordinates from the stream (in
the source's order: vertical draws the column first, horizontal the row
first; the in-bounds check `maxStart < 0` returns false for the whole call). -/
def seedAttempts (word : String) : Nat → World → List ℚ → Bool × World
  | 0, w, _ => (false, w)
  | Nat.succ k, w, rs =>
      let (qv, rs1) := drawQ rs
      if qv < 1/2 then
        let (qc, rs2) := drawQ rs1
        let c := ratFloorNat (qc * (w.cols : ℚ))
        if (w.rows : Int) - word.length < 0 then (false, w)
        else
          let (qr, rs3) := drawQ rs2
          let r := ratFloorNat (qr * ((((w.rows : Int) - word.length).toNat + 1 : Nat) : ℚ))
          if placementFree w r c word.length .V then (true, placeWord w word r c .V)
          else seedAttempts word k w rs3
      else
        let (qr, rs2) := drawQ rs1
        let r := ratFloorNat (qr * (w.rows : ℚ))
        if (w.cols : Int) - word.length < 0 then (false, w)
        else
          let (qc, rs3) := drawQ rs2
          let c := ratFloorNat (qc * ((((w.cols : Int) - word.length).toNat + 1 : Nat) : ℚ))
          if placementFree w r c word.length .H then (true, placeWord w word r c .H)
          else seedAttempts word k w rs3

/-- Source `seedOneWord(world)` (main.js:194-251): choose a dictionary word
within the configured length bounds, then run the placement attempts.  The
`none` branch is unreachable for genuine rng draws in `[0,1)` over a
nonempty dictionary (there the JS `word` would be `undefined` and the source
would throw on `word.length`); it is modelled as a failed attempt. -/
def seedOneWord (w : World) (rs : List ℚ) : Bool × World :=
  let (qw, rs1) := drawQ rs
  match chooseWordFrom w.dict qw w.prefs.minWordLength w.prefs.maxWordLength with
  | none => (false, w)
  | some word => seedAttempts word 40 w rs1

/-- Source `dropOldestWord(world)` (main.js:271-279): shift off the oldest
placed word and unlock its cells. -/
def dropOldestWord (w : World) : World :=
  match w.words with
  | [] => w
  | ww :: rest =>
      let cells2 := ww.cells.foldl (fun cs p =>
        match cs.get? p.idx with
        | none => cs
        | some cell => cs.set p.idx { cell with locked := false }) w.cells
      { w with cells := cells2, words := rest }

/-- Per-cell body of `updateLetters` (main.js:141-167) for one frame.  The
rng draws the body makes are oracle parameters: `qRate` for the fade-rate
`randBetween`, `qMut` for the mutation-probability draw, `qSched` for the
reschedule draw, and `rc` for the character `randomGridChar` would return;
only the draws of the branch actually taken are consumed by the source. -/
def updateLettersCell (p : Prefs) (now dt qRate qMut qSched : ℚ) (rc : Char)
    (cell : Cell) : Cell :=
  let cell1 :=
    if cell.fadeDir ≠ 0 then
      let dir := cell.fadeDir
      let rate := 1 / randBetween p.fadeDurLo p.fadeDurHi qRate
      let t2 := clampQ (cell.fadeT + (dir : ℚ) * rate * dt) 0 1
      let cellA := { cell with fadeT := t2 }
      if t2 = 0 ∧ dir < 0 then
        { cellA with char := cellA.nextChar.getD rc, nextChar := none, fadeDir := 1 }
      else if t2 = 1 ∧ 0 < dir then
        { cellA with fadeDir := 0,
                     nextAt := now + randBetween p.fadeDurLo p.fadeDurHi qSched * 1000 }
      else cellA
    else if cell.locked = false ∧ cell.nextAt ≤ now then
      if qMut < p.changeProbabilityPerCycle then { cell with fadeDir := -1 }
      else { cell with nextAt := now + randBetween p.fadeDurLo p.fadeDurHi qSched * 1000 }
    else cell
  { cell1 with phase := cell1.phase + cell1.speed * dt }

/-- The shape `createWorld` gives a fresh world (main.js:94-132): all cells
unlocked, steady, fully visible and with nothing staged; no active words; an
empty sentence; an inactive capture; the pointer button up; a full
rows-by-cols cell array; the trie built from the dictionary.  Characters,
anchors, phases and schedules come from rng draws, modelled as arbitrary. -/
def InitialWorld (w : World) : Prop :=
  (∀ c ∈ w.cells, c.locked = false ∧ c.fadeDir = 0 ∧ c.fadeT = 1 ∧ c.nextChar = none) ∧
  w.words = [] ∧ w.sentence = [] ∧
  w.capture = ⟨false, 0, none, "", 0⟩ ∧
  w.mouse.down = false ∧
  w.cells.length = w.rows * w.cols ∧
  w.trie = buildTrie w.dict

/-- States reachable from a fresh world by the system's operations: pointer
events (main.js:554-561), seedings, evictions, and capture updates (a
fragment of the frame loop sufficient for the traces below). -/
inductive Reach : World → Prop where
  | init (w : World) : InitialWorld w → Reach w
  | mouseMove (w : World) (x y : ℚ) :
      Reach w → Reach { w with mouse := { w.mouse with x := x, y := y } }
  | mouseDown (w : World) :
      Reach w → Reach { w with mouse := { w.mouse with down := true } }
  | mouseUp (w : World) :
      Reach w → Reach { w with mouse := { w.mouse with down := false } }
  | seed (w : World) (rs : List ℚ) : Reach w → Reach (seedOneWord w rs).2
  | evict (w : World) : Reach w → Reach (dropOldestWord w)
  | capture (w : World) (now q : ℚ) : Reach w → Reach (updateCapture w now q)

/-- A frozen hold: the capture is active on the frozen candidate `fc` with
the matching identity key and start time `t0`, the pointer button down. -/
def HoldInv (w : World) (fc : Cand) (t0 : ℚ) : Prop :=
  w.capture.active = true ∧
  w.capture.wordUnderSpot = some fc ∧
  w.capture.key = candidateKey (some fc) ∧
  w.capture.startMs = t0 ∧
  w.mouse.down = true

/-- The frozen candidate of the mid-hold counterexample: `red` read from
cells 0-2 (identity key `red:0-1-2`). -/
def fc2 : Cand := ⟨"red", 0, 0, .H, [⟨0, 0, 0, 'r'⟩, ⟨0, 1, 1, 'e'⟩, ⟨0, 2, 2, 'd'⟩]⟩

/-- A 1x5 world mid-hold: the capture is frozen on `fc2` (cells 0-2), but
the grid now reads `zredz`, so the live candidate recomputed by the scanner
is `red` at cells 1-3 — a different identity key. -/
def W2c : World :=
  { rows := 1, cols := 5,
    cells := (List.range 5).map fun (i : Nat) =>
      { dCell with x := 10 * (i : ℚ), char := "zredz".toList.getD i 'z' },
    words := [], sentence := [],
    capture := ⟨true, 0, some fc2, "red:0-1-2", 0⟩,
    mouse := ⟨20, 0, true⟩,
    trie := buildTrie ["red"], dict := ["red"],
    prefs := ⟨3, 7, 1, 6, 1/2, 1000, 0, 1, 1⟩ }

/-- The frozen candidate of the timing witness. -/
def fc5 : Cand := ⟨"hold", 0, 0, .H,
  [⟨0, 0, 0, 'h'⟩, ⟨0, 1, 1, 'o'⟩, ⟨0, 2, 2, 'l'⟩, ⟨0, 3, 3, 'd'⟩]⟩

/-- A world mid-hold on `fc5` since t=0, hold duration 1 s. -/
def W5w : World :=
  { rows := 0, cols := 0, cells := [], words := [], sentence := [],
    capture := ⟨true, 0, some fc5, candidateKey (some fc5), 0⟩,
    mouse := ⟨0, 0, true⟩,
    trie := buildTrie [], dict := [],
    prefs := ⟨3, 7, 1, 6, 1/2, 1000, 0, 1, 1⟩ }

/-- The candidate the scanner finds in `W5s` (row `red`, all included). -/
def cand5 : Cand := ⟨"red", 0, 0, .H, [⟨0, 0, 0, 'r'⟩, ⟨0, 1, 1, 'e'⟩, ⟨0, 2, 2, 'd'⟩]⟩

/-- A 1x3 world with `red` under the spotlight, pointer just pressed, no
capture active: the hold-start witness state. -/
def W5s : World :=
  { rows := 1, cols := 3,
    cells := (List.range 3).map fun (i : Nat) =>
      { dCell with x := 10 * (i : ℚ), char := "red".toList.getD i 'z' },
    words := [], sentence := [],
    capture := ⟨false, 0, none, "", 0⟩,
    mouse := ⟨0, 0, true⟩,
    trie := buildTrie ["red"], dict := ["red"],
    prefs := ⟨3, 7, 1, 6, 1/2, 1000, 0, 1, 1⟩ }

/-- Grid characters of the 5x5 scenarios: all `z` except `cat` at row 2,
cols 0-2. -/
def w3Chars : List Char := ("zzzzzzzzzz" ++ "catzz" ++ "zzzzzzzzzz").toList

/-- The placed word of the `cat` scenario (row 2, cols 0-2, indices 10-12). -/
def catPW : PlacedWord := ⟨"cat", 2, 0, .H, [⟨2, 0, 10⟩, ⟨2, 1, 11⟩, ⟨2, 2, 12⟩]⟩

/-- The spec's 5x5 `cat` scenario: dictionary `["cat"]`, the word placed
horizontally at row 2 cols 0-2 (cells locked, fully visible), the spotlight
covering the grid, the pointer held down; `holdToCaptureSeconds = 1`. -/
def W3a : World :=
  { rows := 5, cols := 5,
    cells := (List.range 25).map fun (i : Nat) =>
      { dCell with
          x := 10 * ((i % 5 : Nat) : ℚ), y := 10 * ((i / 5 : Nat) : ℚ),
          char := w3Chars.getD i 'z',
          locked := decide (10 ≤ i ∧ i ≤ 12) },
    words := [catPW], sentence := [],
    capture := ⟨false, 0, none, "", 0⟩,
    mouse := ⟨20, 20, true⟩,
    trie := buildTrie ["cat"], dict := ["cat"],
    prefs := ⟨3, 5, 1, 10, 1/2, 1000, 0, 1, 1⟩ }

/-- A fresh 5x5 world over the dictionary `["cat", "catch"]` whose row 2
happens to read `catzz` (initial characters are rng draws). -/
def W4a : World :=
  { rows := 5, cols := 5,
    cells := (List.range 25).map fun (i : Nat) =>
      { dCell with
          x := 10 * ((i % 5 : Nat) : ℚ), y := 10 * ((i / 5 : Nat) : ℚ),
          char := w3Chars.getD i 'z' },
    words := [], sentence := [],
    capture := ⟨false, 0, none, "", 0⟩,
    mouse := ⟨20, 20, false⟩,
    trie := buildTrie ["cat", "catch"], dict := ["cat", "catch"],
    prefs := ⟨3, 5, 1, 10, 1/2, 1000, 0, 1, 1⟩ }

/-- World `W4a` after the pointer button goes down. -/
def W4b : World := { W4a with mouse := { W4a.mouse with down := true } }

/-- Rng draws of the first seeding: choose `cat`, horizontal, row 2, col 0. -/
def rs41 : List ℚ := [0, 3/4, 1/2, 1/10]

/-- World `W4b` after seeding `cat` at row 2 cols 0-2. -/
def W4c : World := (seedOneWord W4b rs41).2

/-- World `W4c` after the hold starts at t=0. -/
def W4d : World := updateCapture W4c 0 0

/-- World `W4d` after the commit update at t=1000 (full hold duration). -/
def W4e : World := updateCapture W4d 1000 0

/-- Rng draws of the second seeding: choose `catch`, horizontal, row 2,
col 0 (the only fit). -/
def rs42 : List ℚ := [1/2, 3/4, 1/2, 0]

/-- World `W4e` after seeding `catch` at row 2 cols 0-4, overlapping the stale
`cat` entry. -/
def W4f : World := (seedOneWord W4e rs42).2

/-- The overlapping second placed word of the `W4f` trace. -/
def catchPW : PlacedWord :=
  ⟨"catch", 2, 0, .H, [⟨2, 0, 10⟩, ⟨2, 1, 11⟩, ⟨2, 2, 12⟩, ⟨2, 3, 13⟩, ⟨2, 4, 14⟩]⟩

/-- A locked, steady cell whose scheduled mutation time has already elapsed
(`nextAt = 50 ≤ now = 100`) under a mutation probability of 1: an unlocked
cell would begin fading out on this frame. -/
def c9cell : Cell := ⟨0, 0, 'k', 0, 2, 0, 1, 0, 50, true, none⟩

/-- A cell mid fade-out (`fadeDir = -1`, fraction 1/2). -/
def c8cell : Cell := ⟨0, 0, 'a', 0, 0, 0, 1/2, -1, 0, false, none⟩

/-- A 1x3 world whose single row spells `red`, fully visible and inside the
spotlight; used to instantiate the horizontal-completeness theorem. -/
def W1w : World :=
  { rows := 1, cols := 3,
    cells := (List.range 3).map fun (i : Nat) =>
      { dCell with x := 10 * (i : ℚ), char := "red".toList.getD i 'z' },
    words := [], sentence := [],
    capture := ⟨false, 0, none, "", 0⟩,
    mouse := ⟨0, 0, false⟩,
    trie := buildTrie ["red"],
    dict := ["red"],
    prefs := ⟨3, 7, 1, 6, 1/2, 1000, 0, 1, 1⟩ }

end TextDiscovery

namespace TextDiscovery

/-! Trie correctness development (claim C6). -/

theorem childGet_childSet_self (l : List (Char × Trie)) (ch : Char) (nt : Trie) :
    childGet (childSet l ch nt) ch = some nt := by
  induction l with
  | nil => simp [childSet, childGet]
  | cons p rest ih =>
      obtain ⟨c, t⟩ := p
      by_cases h : c = ch
      · subst h; simp [childSet, childGet]
      · simp [childSet, childGet, h, ih]

theorem childGet_childSet_other (l : List (Char × Trie)) (ch d : Char) (nt : Trie)
    (hne : d ≠ ch) : childGet (childSet l ch nt) d = childGet l d := by
  have hne2 : ch ≠ d := Ne.symm hne
  induction l with
  | nil => simp [childSet, childGet, hne2]
  | cons p rest ih =>
      obtain ⟨c, t⟩ := p
      by_cases h : c = ch
      · subst h
        simp [childSet, childGet, hne2]
      · by_cases h2 : c = d
        · subst h2; simp [childSet, childGet, h]
        · simp [childSet, childGet, h, h2, ih]

theorem termB_empty (ds : List Char) : termB (.mk false []) ds = false := by
  cases ds with
  | nil => simp [termB, walkT, Trie.t]
  | cons d rest => simp [termB, walkT, childGet, Trie.c]

/-- Unfolding of `termB` at a nonempty character list. -/
theorem termB_cons (tr : Trie) (d : Char) (ds : List Char) :
    termB tr (d :: ds) =
      match childGet tr.c d with
      | none => false
      | some n => termB n ds := by
  cases h : childGet tr.c d <;> simp [termB, walkT, h]

/-- Inserting a word makes exactly that word complete and preserves every
other membership answer. -/
theorem termB_insertW (cs : List Char) (tr : Trie) (ds : List Char) :
    termB (insertW cs tr) ds = true ↔ ds = cs ∨ termB tr ds = true := by
  induction cs generalizing tr ds with
  | nil =>
      obtain ⟨b, ch⟩ := tr
      cases ds with
      | nil => simp [insertW, termB, walkT, Trie.t]
      | cons d rest =>
          rw [insertW, termB_cons, termB_cons]
          simp only [Trie.c]
          constructor
          · intro h; right; exact h
          · rintro (h | h)
            · exact absurd h (by simp)
            · exact h
  | cons c0 rest ih =>
      obtain ⟨b, ch⟩ := tr
      cases ds with
      | nil =>
          rw [insertW]
          simp only [termB, walkT, Trie.t]
          constructor
          · intro h; right; exact h
          · rintro (h | h)
            · exact absurd h (by simp)
            · exact h
      | cons d ds' =>
          by_cases hd : d = c0
          · subst hd
            rw [insertW, termB_cons, termB_cons]
            simp only [Trie.c, childGet_childSet_self]
            cases hsub : childGet ch d with
            | none =>
                simp only [hsub, Option.getD_none]
                rw [ih]
                rw [termB_empty]
                simp
            | some sub =>
                simp only [hsub, Option.getD_some]
                rw [ih]
                simp
          · rw [insertW, termB_cons, termB_cons]
            simp only [Trie.c, childGet_childSet_other ch c0 d _ hd]
            constructor
            · intro h; right; exact h
            · rintro (h | h)
              · exact absurd h (by simp [hd])
              · exact h

/-- Folding insertions over a word list: a string is complete in the result
iff it is one of the inserted words or was complete before. -/
theorem termB_foldl (ws : List String) (tr : Trie) (ds : List Char) :
    termB (ws.foldl (fun t w => insertW w.toList t) tr) ds = true ↔
      (∃ w ∈ ws, w.toList = ds) ∨ termB tr ds = true := by
  induction ws generalizing tr with
  | nil => simp
  | cons w ws' ih =>
      simp only [List.foldl_cons]
      rw [ih]
      rw [termB_insertW]
      constructor
      · rintro (⟨v, hv, he⟩ | h | h)
        · exact Or.inl ⟨v, List.mem_cons_of_mem _ hv, he⟩
        · exact Or.inl ⟨w, List.mem_cons_self _ _, h.symm⟩
        · exact Or.inr h
      · rintro (⟨v, hv, he⟩ | h)
        · rcases List.mem_cons.mp hv with h1 | h1
          · subst h1; exact Or.inr (Or.inl he.symm)
          · exact Or.inl ⟨v, h1, he⟩
        · exact Or.inr (Or.inr h)

theorem string_toList_inj {a b : String} (h : a.toList = b.toList) : a = b := by
  cases a; cases b
  simp only [String.toList] at h
  exact congrArg String.mk h

/-- The trie built from a word list answers membership exactly. -/
theorem termB_buildTrie (ws : List String) (s : String) :
    termB (buildTrie ws) s.toList = true ↔ s ∈ ws := by
  rw [buildTrie, termB_foldl]
  have hemp := termB_empty s.toList
  constructor
  · rintro (⟨w, hw, he⟩ | h)
    · rwa [string_toList_inj he] at hw
    · rw [hemp] at h; exact absurd h (by simp)
  · intro h; exact Or.inl ⟨s, h, rfl⟩

/-- Claim C6: for every word list used to build the trie, walking from the
root along a listed word's characters succeeds and ends at a node whose
complete-word flag is set; for every string not in the list, the walk either
terminates at a missing child or ends at a node whose flag is not set. -/
theorem trie_walk_correct (ws : List String) (s : String) :
    ((∃ n, walkT (buildTrie ws) s.toList = some n ∧ n.t = true) ↔ s ∈ ws) ∧
    (s ∉ ws →
      walkT (buildTrie ws) s.toList = none ∨
      ∃ n, walkT (buildTrie ws) s.toList = some n ∧ n.t = false) := by
  have hmain := termB_buildTrie ws s
  constructor
  · constructor
    · rintro ⟨n, hn, ht⟩
      apply hmain.mp
      unfold termB
      rw [hn]
      exact ht
    · intro hs
      have hterm := hmain.mpr hs
      unfold termB at hterm
      cases hw : walkT (buildTrie ws) s.toList with
      | none => rw [hw] at hterm; exact absurd hterm (by simp)
      | some n => rw [hw] at hterm; exact ⟨n, rfl, hterm⟩
  · intro hs
    cases hw : walkT (buildTrie ws) s.toList with
    | none => exact Or.inl rfl
    | some n =>
        right
        refine ⟨n, rfl, ?_⟩
        cases hnt : n.t with
        | false => rfl
        | true =>
            exact absurd (hmain.mp (by unfold termB; rw [hw]; exact hnt)) hs

/-- The inner trie walk emits the candidate for every terminal prefix it
reaches: if walking from `node` along all of `v` ends at a complete-word
node, the candidate for `acc ++ v` is among the emitted ones, whatever cells
`t` follow. -/
theorem walkScan_cons_some (node : Trie) (acc : List SCell) (s : SCell)
    (rest : List SCell) (n : Trie) (hc : childGet node.c s.ch = some n) :
    walkScan node acc (s :: rest) =
      (if n.t = true then [mkCand (acc ++ [s])] else []) ++ walkScan n (acc ++ [s]) rest := by
  simp [walkScan, hc]

theorem walkScan_complete (v : List SCell) (m : Trie) :
    ∀ (node : Trie) (acc t : List SCell), v ≠ [] →
      walkT node (v.map (·.ch)) = some m → m.t = true →
      mkCand (acc ++ v) ∈ walkScan node acc (v ++ t) := by
  induction v with
  | nil => intro node acc t h; exact absurd rfl h
  | cons s v' ih =>
      intro node acc t _ hwalk ht
      simp only [List.map_cons, walkT] at hwalk
      cases hc : childGet node.c s.ch with
      | none => rw [hc] at hwalk; exact absurd hwalk (by simp)
      | some n =>
          rw [hc] at hwalk
          cases v' with
          | nil =>
              simp only [List.map_nil, walkT, Option.some.injEq] at hwalk
              subst hwalk
              simp [walkScan, hc, ht]
          | cons s2 v'' =>
              have hmem := ih n (acc ++ [s]) t (by simp) hwalk ht
              rw [List.cons_append, walkScan_cons_some node acc s _ n hc]
              refine List.mem_append_right _ ?_
              have hassoc : acc ++ s :: s2 :: v'' = (acc ++ [s]) ++ s2 :: v'' := by simp
              rw [hassoc]
              exact hmem

/-- Segment scan completeness: every contiguous sub-span of a segment whose
characters walk the trie to a complete-word node is recorded, wherever the
span sits inside the segment. -/
theorem scanSegment_complete (tr : Trie) (v : List SCell) (m : Trie)
    (hne : v ≠ []) (hwalk : walkT tr (v.map (·.ch)) = some m) (ht : m.t = true) :
    ∀ (u t : List SCell), mkCand v ∈ scanSegmentWithTrie tr (u ++ v ++ t) := by
  intro u t
  induction u with
  | nil =>
      cases v with
      | nil => exact absurd rfl hne
      | cons s v' =>
          simp only [List.nil_append, List.cons_append, scanSegmentWithTrie]
          refine List.mem_append_left _ ?_
          have hm := walkScan_complete (s :: v') m tr [] t (by simp) hwalk ht
          simpa using hm
  | cons x u' ihu =>
      simp only [List.cons_append, scanSegmentWithTrie]
      exact List.mem_append_right _ ihu

theorem takeWhile_append_all {α : Type} (p : α → Bool) (a b : List α)
    (h : ∀ x ∈ a, p x = true) : (a ++ b).takeWhile p = a ++ b.takeWhile p := by
  induction a with
  | nil => simp
  | cons x a' ih =>
      have hx := h x (by simp)
      simp only [List.cons_append, List.takeWhile_cons, hx, if_true]
      rw [ih fun y hy => h y (List.mem_cons_of_mem _ hy)]

/-- Whatever `scanSegmentWithTrie` finds in the run in progress extended by
the maximal included prefix of the remaining cells is found by the line
scanner. -/
theorem scanLineAux_flush (tr : Trie) (incA : List Bool) (cand : Cand) :
    ∀ (l cur : List SCell),
      cand ∈ scanSegmentWithTrie tr (cur ++ l.takeWhile fun x => incA.getD x.idx false) →
      cand ∈ scanLineAux tr incA cur l := by
  intro l
  induction l with
  | nil => intro cur h; simpa [scanLineAux] using h
  | cons x xs ih =>
      intro cur h
      cases hx : incA.getD x.idx false with
      | true =>
          simp only [scanLineAux, hx, if_true]
          apply ih
          rw [List.takeWhile_cons, hx, if_pos rfl] at h
          simpa using h
      | false =>
          simp only [scanLineAux, hx]
          rw [List.takeWhile_cons, hx] at h
          simp only [Bool.false_eq_true, if_false, List.append_nil] at h
          simp only [if_false, Bool.false_eq_true]
          exact List.mem_append_left _ h

/-- Row-scan completeness: a nonempty contiguous span of included cells whose
characters walk the trie to a complete-word node yields its candidate,
wherever the span sits in the line and whatever run is in progress. -/
theorem scanLineAux_complete (tr : Trie) (incA : List Bool) (span : List SCell) (m : Trie)
    (hne : span ≠ []) (hinc : ∀ x ∈ span, incA.getD x.idx false = true)
    (hwalk : walkT tr (span.map (·.ch)) = some m) (ht : m.t = true) :
    ∀ (pre post cur : List SCell),
      mkCand span ∈ scanLineAux tr incA cur (pre ++ span ++ post) := by
  intro pre
  induction pre with
  | nil =>
      intro post cur
      apply scanLineAux_flush
      rw [List.nil_append, takeWhile_append_all _ span post hinc, ← List.append_assoc]
      exact scanSegment_complete tr span m hne hwalk ht cur _
  | cons x pre' ih =>
      intro post cur
      simp only [List.cons_append]
      cases hx : incA.getD x.idx false with
      | true =>
          simp only [scanLineAux, hx, if_true]
          exact ih post (cur ++ [x])
      | false =>
          simp only [scanLineAux, hx, Bool.false_eq_true, if_false]
          exact List.mem_append_right _ (ih post [])

/-- Claim C1 (amended): the spotlight scanner records, before length
filtering, every candidate spelled by a contiguous run of included cells in
the horizontal orientation: for every world, row, and nonempty span of
included cells of that row whose characters walk the prefix tree to a
complete-word node, the corresponding candidate is in the scanner's
candidate list.  (The claim's vertical half fails: the implementation scans
rows only — see the counterexample.) -/
theorem scanner_horizontal_complete (w : World) (r : Nat) (pre span post : List SCell)
    (hr : r < w.rows)
    (hrow : rowSeg w r = pre ++ span ++ post)
    (hne : span ≠ [])
    (hinc : ∀ x ∈ span, (includeArr w).getD x.idx false = true)
    (hterm : termB w.trie (span.map (·.ch)) = true) :
    mkCand span ∈ spotCandidates w := by
  obtain ⟨m, hwalk, ht⟩ : ∃ m, walkT w.trie (span.map (·.ch)) = some m ∧ m.t = true := by
    unfold termB at hterm
    cases hw : walkT w.trie (span.map (·.ch)) with
    | none => rw [hw] at hterm; exact absurd hterm (by simp)
    | some n => rw [hw] at hterm; exact ⟨n, rfl, hterm⟩
  have hmem := scanLineAux_complete w.trie (includeArr w) span m hne hinc hwalk ht pre post []
  refine List.mem_flatten.mpr ⟨scanLine w.trie (includeArr w) (rowSeg w r), ?_, ?_⟩
  · exact List.mem_map.mpr ⟨r, List.mem_range.mpr hr, rfl⟩
  · rw [scanLine, hrow]; exact hmem

/-- Claim C1 counterexample: in the concrete world `CW`, the cells of column
0 (grid indices 0, 3, 6) form a contiguous vertical run of included cells
spelling the dictionary word `red` — the walk through the world's prefix
tree ends at a complete-word node — yet the scanner's candidate list is
empty: the vertical candidate is never recorded, because `wordUnderSpotlight`
scans rows only.  This refutes the claim that every candidate in either
orientation is recorded. -/
theorem scanner_vertical_missed_cx :
    ((CW.cells.getD 0 dCell).char = 'r' ∧ (includeArr CW).getD 0 false = true) ∧
    ((CW.cells.getD 3 dCell).char = 'e' ∧ (includeArr CW).getD 3 false = true) ∧
    ((CW.cells.getD 6 dCell).char = 'd' ∧ (includeArr CW).getD 6 false = true) ∧
    termB CW.trie ['r', 'e', 'd'] = true ∧
    spotCandidates CW = [] := by
  with_unfolding_all decide

/-- Claim C1 witness: the amended (rows-only) completeness theorem applied to
the concrete world `W1w`, whose single row spells `red`. -/
theorem scanner_horizontal_complete_witness :
    mkCand (rowSeg W1w 0) ∈ spotCandidates W1w := by
  exact scanner_horizontal_complete W1w 0 [] (rowSeg W1w 0) []
    (by decide) (by simp) (by with_unfolding_all decide)
    (by with_unfolding_all decide) (by with_unfolding_all decide)

theorem clampQ_eq_self {x : ℚ} (h0 : 0 ≤ x) (h1 : x ≤ 1) : clampQ x 0 1 = x := by
  unfold clampQ
  rw [min_eq_right h1, max_eq_right h0]

theorem clampQ_eq_one {x : ℚ} (h : 1 ≤ x) : clampQ x 0 1 = 1 := by
  unfold clampQ
  rw [min_eq_left h, max_eq_right (by norm_num)]

/-- A continuing hold strictly before the deadline only refreshes the
progress fraction: the frozen candidate, key, and start time survive, and no
world mutation happens. -/
theorem updateCapture_holding (w : World) (fc : Cand) (t0 now q : ℚ)
    (hinv : HoldInv w fc t0) (hD : 0 < w.prefs.holdToCaptureSeconds)
    (ht0 : t0 ≤ now) (hlt : now - t0 < w.prefs.holdToCaptureSeconds * 1000) :
    updateCapture w now q =
      { w with capture := { w.capture with
          progress01 := (now - t0) / (w.prefs.holdToCaptureSeconds * 1000) } } := by
  obtain ⟨ha, hwus, hk, hs, hd⟩ := hinv
  have hD1000 : (0 : ℚ) < w.prefs.holdToCaptureSeconds * 1000 :=
    mul_pos hD (by norm_num)
  have hx0 : 0 ≤ (now - t0) / (w.prefs.holdToCaptureSeconds * 1000) :=
    div_nonneg (sub_nonneg.mpr ht0) hD1000.le
  have hx1 : (now - t0) / (w.prefs.holdToCaptureSeconds * 1000) < 1 :=
    (div_lt_one hD1000).mpr hlt
  have hclamp : clampQ ((now - t0) / (w.prefs.holdToCaptureSeconds * 1000)) 0 1 =
      (now - t0) / (w.prefs.holdToCaptureSeconds * 1000) :=
    clampQ_eq_self hx0 hx1.le
  have hnot : ¬ (1 : ℚ) ≤ (now - t0) / (w.prefs.holdToCaptureSeconds * 1000) :=
    not_le.mpr hx1
  simp [updateCapture, ha, hwus, hd, hs, hk, hclamp, hnot]

/-- The first update at or past the deadline commits: the capture resets and
the world takes the `finalizeCapture` effects for the frozen candidate. -/
theorem updateCapture_commit (w : World) (fc : Cand) (t0 now q : ℚ)
    (hinv : HoldInv w fc t0) (hD : 0 < w.prefs.holdToCaptureSeconds)
    (hge : w.prefs.holdToCaptureSeconds * 1000 ≤ now - t0) :
    updateCapture w now q =
      { finalizeCapture w fc with capture :=
          { active := false, startMs := w.capture.startMs, wordUnderSpot := none,
            key := "", progress01 := 0 } } := by
  obtain ⟨ha, hwus, hk, hs, hd⟩ := hinv
  have hD1000 : (0 : ℚ) < w.prefs.holdToCaptureSeconds * 1000 :=
    mul_pos hD (by norm_num)
  have hx : (1 : ℚ) ≤ (now - t0) / (w.prefs.holdToCaptureSeconds * 1000) :=
    (one_le_div hD1000).mpr hge
  have hclamp : clampQ ((now - t0) / (w.prefs.holdToCaptureSeconds * 1000)) 0 1 = 1 :=
    clampQ_eq_one hx
  simp [updateCapture, ha, hwus, hd, hs, hk, hclamp, finalizeCapture]

/-- A press over a detected candidate starts the hold: the candidate is
frozen under its identity key, the clock starts now, progress resets. -/
theorem updateCapture_start (w : World) (now q : ℚ) (c : Cand)
    (hna : w.capture.active = false) (hd : w.mouse.down = true)
    (hdet : wordUnderSpotlight w q = some c) :
    updateCapture w now q =
      { w with capture := ⟨true, now, some c, candidateKey (some c), 0⟩ } := by
  simp [updateCapture, hna, hd, hdet]

/-- Claim C5: for a frozen candidate held continuously, (start) pressing over
a detected candidate enters Holding with progress 0; (hold) every update
strictly before the configured hold duration keeps the machine Holding on
the same frozen candidate with progress recomputed from elapsed wall-clock
time as the clamp of `(now - start) / duration`, strictly below 1, and no
commit effect; (commit) the first update at or after the duration fires the
commit exactly once — it appends the word to the sentence and resets the
machine to Idle, so no further update of this hold can commit again. -/
theorem capture_timing :
    (∀ (w : World) (now q : ℚ) (c : Cand),
      w.capture.active = false → w.mouse.down = true →
      wordUnderSpotlight w q = some c →
      (updateCapture w now q).capture = ⟨true, now, some c, candidateKey (some c), 0⟩) ∧
    (∀ (w : World) (fc : Cand) (t0 now q : ℚ),
      HoldInv w fc t0 → 0 < w.prefs.holdToCaptureSeconds → t0 ≤ now →
      now - t0 < w.prefs.holdToCaptureSeconds * 1000 →
      HoldInv (updateCapture w now q) fc t0 ∧
      (updateCapture w now q).capture.progress01 =
        clampQ ((now - t0) / (w.prefs.holdToCaptureSeconds * 1000)) 0 1 ∧
      (updateCapture w now q).capture.progress01 =
        (now - t0) / (w.prefs.holdToCaptureSeconds * 1000) ∧
      (updateCapture w now q).capture.progress01 < 1 ∧
      (updateCapture w now q).sentence = w.sentence ∧
      (updateCapture w now q).words = w.words ∧
      (updateCapture w now q).cells = w.cells) ∧
    (∀ (w : World) (fc : Cand) (t0 now q : ℚ),
      HoldInv w fc t0 → 0 < w.prefs.holdToCaptureSeconds →
      w.prefs.holdToCaptureSeconds * 1000 ≤ now - t0 →
      (updateCapture w now q).capture.active = false ∧
      (updateCapture w now q).capture.wordUnderSpot = none ∧
      (updateCapture w now q).capture.progress01 = 0 ∧
      (updateCapture w now q).sentence =
        pushSentence w.prefs.maxSentenceWords w.sentence fc.word) := by
  refine ⟨?_, ?_, ?_⟩
  · intro w now q c hna hd hdet
    rw [updateCapture_start w now q c hna hd hdet]
  · intro w fc t0 now q hinv hD ht0 hlt
    have hD1000 : (0 : ℚ) < w.prefs.holdToCaptureSeconds * 1000 :=
      mul_pos hD (by norm_num)
    have hx0 : 0 ≤ (now - t0) / (w.prefs.holdToCaptureSeconds * 1000) :=
      div_nonneg (sub_nonneg.mpr ht0) hD1000.le
    have hx1 : (now - t0) / (w.prefs.holdToCaptureSeconds * 1000) < 1 :=
      (div_lt_one hD1000).mpr hlt
    obtain ⟨ha, hwus, hk, hs, hd⟩ := hinv
    rw [updateCapture_holding w fc t0 now q ⟨ha, hwus, hk, hs, hd⟩ hD ht0 hlt]
    refine ⟨⟨by simp [ha], by simp [hwus], by simp [hk], by simp [hs], by simp [hd]⟩,
      ?_, by simp, ?_, by simp, by simp, by simp⟩
    · simp [clampQ_eq_self hx0 hx1.le]
    · simpa using hx1
  · intro w fc t0 now q hinv hD hge
    rw [updateCapture_commit w fc t0 now q hinv hD hge]
    exact ⟨by simp, by simp, by simp, by simp [finalizeCapture]⟩

/-- Claim C5 witness: the theorem applied to the hold-start world `W5s`
(capture starts on the detected `red` candidate), the mid-hold world `W5w`
at t=500 of a 1000 ms hold (progress 1/2, still Holding), and the commit
update at t=1000 (the word enters the sentence). -/
theorem capture_timing_witness :
    (updateCapture W5s 0 0).capture = ⟨true, 0, some cand5, candidateKey (some cand5), 0⟩ ∧
    (updateCapture W5w 500 0).capture.active = true ∧
    (updateCapture W5w 500 0).capture.progress01 = 1/2 ∧
    (updateCapture (updateCapture W5w 500 0) 1000 0).sentence = ["hold"] := by
  have hhold := capture_timing.2.1 W5w fc5 0 500 0 ⟨rfl, rfl, rfl, rfl, rfl⟩
    (by with_unfolding_all decide) (by with_unfolding_all decide)
    (by with_unfolding_all decide)
  refine ⟨?_, hhold.1.1, ?_, ?_⟩
  · exact capture_timing.1 W5s 0 0 cand5 rfl rfl (by with_unfolding_all decide)
  · rw [hhold.2.2.1]
    with_unfolding_all decide
  · have hcommit := capture_timing.2.2 (updateCapture W5w 500 0) fc5 0 1000 0 hhold.1
      (by with_unfolding_all decide) (by with_unfolding_all decide)
    rw [hcommit.2.2.2]
    with_unfolding_all decide

/-- Claim C2 counterexample: in the concrete mid-hold world `W2c` the live
candidate recomputed by the scanner is `red` at cells 1-3 (key `red:1-2-3`),
while the frozen candidate's key is `red:0-1-2`; the pointer button is down.
The claim says this update returns the machine to Idle with progress 0 — but
the update keeps the capture active on the frozen candidate with progress
1/2: while a capture is active, `updateCapture` compares the frozen
candidate's key against itself, so a live-candidate change is never
detected. -/
theorem hold_reset_on_key_change_cx :
    candidateKey (wordUnderSpotlight W2c 0) = "red:1-2-3" ∧
    W2c.capture.key = "red:0-1-2" ∧
    candidateKey (wordUnderSpotlight W2c 0) ≠ W2c.capture.key ∧
    W2c.mouse.down = true ∧
    W2c.capture.active = true ∧
    (updateCapture W2c 500 0).capture.active = true ∧
    (updateCapture W2c 500 0).capture.wordUnderSpot = some fc2 ∧
    (updateCapture W2c 500 0).capture.progress01 = 1/2 := by
  with_unfolding_all decide

/-- Claim C2 (amended): during an active hold with the pointer button down,
a change of the live candidate's identity key does not reset the capture
machine: the update keeps the frozen candidate, its key and its start time
(the key comparison is made against the frozen candidate itself), and —
strictly before the hold deadline — the machine stays Holding with progress
recomputed from the elapsed time; the hold ends only on pointer release or
commit. -/
theorem hold_ignores_live_change (w : World) (fc : Cand) (t0 now q : ℚ)
    (hinv : HoldInv w fc t0)
    (_hlive : candidateKey (wordUnderSpotlight w q) ≠ candidateKey (some fc))
    (hD : 0 < w.prefs.holdToCaptureSeconds)
    (ht0 : t0 ≤ now) (hlt : now - t0 < w.prefs.holdToCaptureSeconds * 1000) :
    (updateCapture w now q).capture.active = true ∧
    (updateCapture w now q).capture.wordUnderSpot = some fc ∧
    (updateCapture w now q).capture.key = candidateKey (some fc) ∧
    (updateCapture w now q).capture.startMs = t0 ∧
    (updateCapture w now q).capture.progress01 =
      (now - t0) / (w.prefs.holdToCaptureSeconds * 1000) := by
  obtain ⟨ha, hwus, hk, hs, hd⟩ := hinv
  rw [updateCapture_holding w fc t0 now q ⟨ha, hwus, hk, hs, hd⟩ hD ht0 hlt]
  exact ⟨by simp [ha], by simp [hwus], by simp [hk], by simp [hs], by simp⟩

/-- Claim C2 witness: the amended theorem applied to `W2c`, whose live
candidate key `red:1-2-3` differs from the frozen `red:0-1-2`. -/
theorem hold_ignores_live_change_witness :
    (updateCapture W2c 500 0).capture.active = true ∧
    (updateCapture W2c 500 0).capture.startMs = 0 ∧
    (updateCapture W2c 500 0).capture.wordUnderSpot = some fc2 := by
  have h := hold_ignores_live_change W2c fc2 0 500 0
    ⟨rfl, rfl, by with_unfolding_all decide, rfl, rfl⟩
    (by with_unfolding_all decide) (by with_unfolding_all decide)
    (by with_unfolding_all decide) (by with_unfolding_all decide)
  exact ⟨h.1, h.2.2.2.1, h.2.1⟩

/-- Claim C3 (code bug): in the 5x5 `cat` scenario a full-duration hold
(updates at t=0 and t=1000 with `holdToCaptureSeconds = 1`) appends `"cat"`
to the sentence, unlocks the word's three cells and resets the capture — but
the captured PlacedWord is NOT removed from the active word list: the
source's `world.words.indexOf(wordObj)` compares the freshly allocated
scanner candidate by reference against the seeded objects and always yields
-1, so the active word set stays `[catPW]` instead of becoming empty. -/
theorem capture_commit_cat_scenario :
    (updateCapture (updateCapture W3a 0 0) 1000 0).sentence = ["cat"] ∧
    ((updateCapture (updateCapture W3a 0 0) 1000 0).cells.getD 10 dCell).locked = false ∧
    ((updateCapture (updateCapture W3a 0 0) 1000 0).cells.getD 11 dCell).locked = false ∧
    ((updateCapture (updateCapture W3a 0 0) 1000 0).cells.getD 12 dCell).locked = false ∧
    (updateCapture (updateCapture W3a 0 0) 1000 0).capture.active = false ∧
    (updateCapture (updateCapture W3a 0 0) 1000 0).words = [catPW] := by
  with_unfolding_all decide

/-- Claim C4 (code bug): a reachable state whose active word list holds two
distinct placed words claiming the same cells.  The trace: from the fresh
world `W4a`, press the button, seed `cat` at row 2 cols 0-2, hold for the
full duration (the commit unlocks the cells but — by the reference-equality
`indexOf` slip of `finalizeCapture` — leaves `cat` in the active list), then
seed `catch` at row 2 cols 0-4: `placementFree` checks only the lock flags,
all unlocked again, so the new word overlaps the stale one on cells
10, 11, 12. -/
theorem placed_words_overlap_reachable :
    Reach W4f ∧
    W4a.trie = buildTrie W4a.dict ∧
    W4f.words = [catPW, catchPW] ∧
    catPW ≠ catchPW ∧
    (10 ∈ catPW.cells.map fun p => p.idx) ∧
    (10 ∈ catchPW.cells.map fun p => p.idx) := by
  refine ⟨?_, rfl, by with_unfolding_all decide, by decide, by decide, by decide⟩
  exact Reach.seed W4e rs42 (Reach.capture W4d 1000 0 (Reach.capture W4c 0 0
    (Reach.seed W4b rs41 (Reach.mouseDown W4a (Reach.init W4a
      ⟨by with_unfolding_all decide, rfl, rfl, rfl, rfl,
       by with_unfolding_all decide, rfl⟩)))))

theorem tail_append_left {α : Type} (a b : List α) (h : a ≠ []) :
    (a ++ b).tail = a.tail ++ b := by
  cases a with
  | nil => exact absurd rfl h
  | cons x xs => simp

/-- Folding sentence pushes from any under-cap start keeps exactly the most
recent `cap` entries: the result is the suffix of the appended stream. -/
theorem pushSentence_foldl (cap : Nat) : ∀ (ws s : List String), s.length ≤ cap →
    List.foldl (pushSentence cap) s ws = (s ++ ws).drop (s.length + ws.length - cap) := by
  intro ws
  induction ws with
  | nil =>
      intro s h
      simp [Nat.sub_eq_zero_of_le h]
  | cons w ws' ih =>
      intro s h
      simp only [List.foldl_cons]
      by_cases hful : cap < s.length + 1
      · have hp : pushSentence cap s w = (s ++ [w]).tail := by
          simp only [pushSentence]
          rw [if_pos (by simp; omega)]
        rw [hp, ih _ (by simp [List.length_tail]; omega)]
        have hidx1 : (s ++ [w]).tail.length + ws'.length - cap = ws'.length := by
          simp [List.length_tail]; omega
        have hidx2 : s.length + (w :: ws').length - cap = ws'.length + 1 := by
          simp [List.length_cons]; omega
        rw [hidx1, hidx2, ← tail_append_left (s ++ [w]) ws' (by simp), ← List.drop_one,
          List.drop_drop]
        have hlist : (s ++ [w]) ++ ws' = s ++ w :: ws' := by simp
        rw [hlist, Nat.add_comm 1 ws'.length]
      · have hp : pushSentence cap s w = s ++ [w] := by
          simp only [pushSentence]
          rw [if_neg (by simp; omega)]
        rw [hp, ih _ (by simp; omega)]
        have hidx : (s ++ [w]).length + ws'.length - cap =
            s.length + (w :: ws').length - cap := by
          simp; omega
        have hlist : (s ++ [w]) ++ ws' = s ++ w :: ws' := by simp
        rw [hidx, hlist]

/-- Claim C7: after appending `ws.length ≥ cap` words starting from an empty
sentence, the sentence is exactly the most recent `cap` of them in capture
order and its length equals the cap; each single commit appends one word and
evicts at most the single oldest entry (none while under the cap, exactly
the oldest at the cap). -/
theorem sentence_capping (cap : Nat) (ws : List String) (h : cap ≤ ws.length) :
    List.foldl (pushSentence cap) [] ws = ws.drop (ws.length - cap) ∧
    (List.foldl (pushSentence cap) [] ws).length = cap ∧
    (∀ (s : List String) (w : String), s.length < cap →
      pushSentence cap s w = s ++ [w]) ∧
    (∀ (s : List String) (w : String), cap ≤ s.length →
      pushSentence cap s w = (s ++ [w]).tail) := by
  have hbase := pushSentence_foldl cap ws [] (by simp)
  simp only [List.nil_append, List.length_nil, Nat.zero_add] at hbase
  refine ⟨hbase, ?_, ?_, ?_⟩
  · rw [hbase, List.length_drop]
    omega
  · intro s w hlt
    simp only [pushSentence]
    rw [if_neg (by simp; omega)]
  · intro s w hge
    simp only [pushSentence]
    rw [if_pos (by simp; omega)]

/-- Claim C7 witness: capping at 2 over three appends leaves the most recent
two words, in order. -/
theorem sentence_capping_witness :
    List.foldl (pushSentence 2) [] ["a", "b", "c"] = ["b", "c"] ∧
    (List.foldl (pushSentence 2) [] ["a", "b", "c"]).length = 2 := by
  have h := sentence_capping 2 ["a", "b", "c"] (by norm_num)
  exact ⟨by rw [h.1]; decide, h.2.1⟩

/-- Claim C9: a locked, steady cell is untouched by the per-frame letter
update apart from the cosmetic jitter-phase advance — the scheduled-mutation
branch requires the cell to be unlocked, so its character, fade state,
staged character and schedule are all unchanged even when the scheduled
mutation time has elapsed. -/
theorem locked_no_spontaneous_mutation (p : Prefs) (now dt qRate qMut qSched : ℚ)
    (rc : Char) (cell : Cell) (hl : cell.locked = true) (hsd : cell.fadeDir = 0) :
    updateLettersCell p now dt qRate qMut qSched rc cell =
      { cell with phase := cell.phase + cell.speed * dt } := by
  simp [updateLettersCell, hsd, hl]

/-- Claim C9 witness: the theorem applied to `c9cell`; only the phase moves. -/
theorem locked_no_spontaneous_mutation_witness :
    updateLettersCell ⟨3, 7, 1, 6, 1/2, 1000, 1, 1, 1⟩ 100 1 0 0 0 'q' c9cell =
      { c9cell with phase := c9cell.phase + c9cell.speed * 1 } :=
  locked_no_spontaneous_mutation ⟨3, 7, 1, 6, 1/2, 1000, 1, 1, 1⟩ 100 1 0 0 0 'q'
    c9cell rfl rfl

/-- Claim C10: for every nonempty dictionary and rng draw in `[0,1)`,
`chooseWord` returns some dictionary word; when at least one word's length
lies within the bounds the pick respects them, but when none does it silently
falls back to the full dictionary — concretely, bounds `[1,2]` over the
source dictionary yield `mind`, whose length 4 violates them — and the
scanner's length filter rejects every such out-of-bounds word. -/
theorem chooseWord_total_fallback :
    (∀ (dict : List String) (q : ℚ) (minLen maxLen : Nat),
      dict ≠ [] → 0 ≤ q → q < 1 →
      ∃ w, chooseWordFrom dict q minLen maxLen = some w ∧ w ∈ dict ∧
        ((∃ v ∈ dict, minLen ≤ v.length ∧ v.length ≤ maxLen) →
          minLen ≤ w.length ∧ w.length ≤ maxLen)) ∧
    (chooseWord 0 1 2 = some "mind" ∧ ¬ (1 ≤ "mind".length ∧ "mind".length ≤ 2)) ∧
    (∀ (p : Prefs) (c : Cand),
      c.word.length < p.minWordLength ∨ p.maxWordLength < c.word.length →
      lenOK p c = false) := by
  refine ⟨?_, ⟨by with_unfolding_all decide, by decide⟩, ?_⟩
  · intro dict q minLen maxLen hne hq0 hq1
    simp only [chooseWordFrom]
    set f : String → Bool :=
      fun w => decide (minLen ≤ w.length) && decide (w.length ≤ maxLen) with hf
    set src := if (dict.filter f).isEmpty then dict else dict.filter f with hsrc
    have hsub : ∀ x ∈ src, x ∈ dict := by
      intro x hx
      by_cases hemp : (dict.filter f).isEmpty
      · rw [hsrc, if_pos hemp] at hx; exact hx
      · rw [hsrc, if_neg hemp] at hx; exact List.mem_of_mem_filter hx
    have hsne : src ≠ [] := by
      by_cases hemp : (dict.filter f).isEmpty
      · rw [hsrc, if_pos hemp]; exact hne
      · rw [hsrc, if_neg hemp]
        intro hnil
        exact hemp (by rw [hnil]; rfl)
    have hlen : 0 < src.length := List.length_pos.mpr hsne
    have hcast : (0 : ℚ) < (src.length : ℚ) := by exact_mod_cast hlen
    have hfl0 : (0 : Int) ≤ ⌊q * (src.length : ℚ)⌋ :=
      Int.floor_nonneg.mpr (mul_nonneg hq0 hcast.le)
    have hflt : ⌊q * (src.length : ℚ)⌋ < (src.length : Int) := by
      rw [Int.floor_lt]
      push_cast
      exact mul_lt_of_lt_one_left hcast hq1
    have hi : (⌊q * (src.length : ℚ)⌋).toNat < src.length := by omega
    rw [if_neg (not_lt.mpr hfl0)]
    refine ⟨src.get ⟨_, hi⟩, List.get?_eq_get hi, hsub _ (List.get_mem _ _ _), ?_⟩
    rintro ⟨v, hv, hv1, hv2⟩
    have hvf : v ∈ dict.filter f := List.mem_filter.mpr ⟨hv, by simp [hf, hv1, hv2]⟩
    have hemp : ¬ (dict.filter f).isEmpty := by
      intro he
      exact absurd hvf (by simp [List.isEmpty_iff.mp he])
    have hsrc2 : src = dict.filter f := by rw [hsrc, if_neg hemp]
    have hmemf : src.get ⟨_, hi⟩ ∈ dict.filter f := hsrc2 ▸ List.get_mem _ _ _
    have hboth := (List.mem_filter.mp hmemf).2
    rw [hf] at hboth
    simp only [Bool.and_eq_true, decide_eq_true_eq] at hboth
    exact hboth
  · intro p c hout
    unfold lenOK
    rcases hout with hlt | hgt
    · simp [Nat.not_le.mpr hlt]
    · simp [Nat.not_le.mpr hgt]

/-- Claim C10 witness: the theorem applied concretely — the pick over the
source dictionary with in-range bounds is some word; with impossible bounds
`[1,2]` it is `mind`, length 4; and the scanner filter at minimum length 5
rejects a `mind` candidate. -/
theorem chooseWord_total_fallback_witness :
    (chooseWordFrom DICTIONARY 0 4 4).isSome = true ∧
    chooseWord 0 1 2 = some "mind" ∧
    lenOK ⟨5, 7, 1, 6, 1/2, 1000, 0, 1, 1⟩ ⟨"mind", 0, 0, .H, []⟩ = false := by
  refine ⟨?_, chooseWord_total_fallback.2.1.1, ?_⟩
  · obtain ⟨w, hw, _, _⟩ := chooseWord_total_fallback.1 DICTIONARY 0 4 4
      (by decide) (by norm_num) (by norm_num)
    rw [hw]
    rfl
  · exact chooseWord_total_fallback.2.2 _ _ (Or.inl (by decide))

theorem clampQ_nonneg (x : ℚ) : 0 ≤ clampQ x 0 1 := le_max_left 0 _

theorem clampQ_le_one (x : ℚ) : clampQ x 0 1 ≤ 1 :=
  max_le (by norm_num) (min_le_left 1 x)

theorem clampQ_le_of_le {x t : ℚ} (hx : x ≤ t) (ht : 0 ≤ t) : clampQ x 0 1 ≤ t :=
  max_le ht (le_trans (min_le_right 1 x) hx)

theorem le_clampQ_of_le {x t : ℚ} (hx : t ≤ x) (ht : t ≤ 1) : t ≤ clampQ x 0 1 :=
  le_trans (le_min ht hx) (le_max_right 0 _)

/-- Claim C8: for every cell and per-frame update, the fade fraction never
leaves `[0,1]`; while fading out it never increases and on reaching 0 the
direction reverses to fading in; while fading in it never decreases and on
reaching 1 the cell becomes steady. -/
theorem fade_monotone (p : Prefs) (now dt qRate qMut qSched : ℚ) (rc : Char)
    (cell : Cell) (hdt : 0 ≤ dt) (hlo : 0 < p.fadeDurLo)
    (hhi : p.fadeDurLo ≤ p.fadeDurHi) (hq0 : 0 ≤ qRate)
    (ht0 : 0 ≤ cell.fadeT) (ht1 : cell.fadeT ≤ 1) :
    (0 ≤ (updateLettersCell p now dt qRate qMut qSched rc cell).fadeT ∧
      (updateLettersCell p now dt qRate qMut qSched rc cell).fadeT ≤ 1) ∧
    (cell.fadeDir = -1 →
      (updateLettersCell p now dt qRate qMut qSched rc cell).fadeT ≤ cell.fadeT ∧
      ((updateLettersCell p now dt qRate qMut qSched rc cell).fadeT = 0 →
        (updateLettersCell p now dt qRate qMut qSched rc cell).fadeDir = 1)) ∧
    (cell.fadeDir = 1 →
      cell.fadeT ≤ (updateLettersCell p now dt qRate qMut qSched rc cell).fadeT ∧
      ((updateLettersCell p now dt qRate qMut qSched rc cell).fadeT = 1 →
        (updateLettersCell p now dt qRate qMut qSched rc cell).fadeDir = 0)) := by
  have hrb : 0 < randBetween p.fadeDurLo p.fadeDurHi qRate := by
    unfold randBetween
    have hnn : 0 ≤ (p.fadeDurHi - p.fadeDurLo) * qRate :=
      mul_nonneg (sub_nonneg.mpr hhi) hq0
    linarith
  have hrate : 0 ≤ (randBetween p.fadeDurLo p.fadeDurHi qRate)⁻¹ * dt :=
    mul_nonneg (le_of_lt (inv_pos.mpr hrb)) hdt
  simp only [updateLettersCell, one_div]
  split_ifs with hfd hz ho hlk hmut
  · -- fading, reached 0 while fading out: char swap, direction reverses
    refine ⟨⟨by simp [hz.1], by simp [hz.1]⟩, ?_, ?_⟩
    · intro hdir
      exact ⟨by simp [hz.1, ht0], fun _ => by simp⟩
    · intro hdir
      rw [hdir] at hz
      exact absurd hz.2 (by omega)
  · -- fading, reached 1 while fading in: becomes steady
    refine ⟨⟨by simp [ho.1], by simp [ho.1]⟩, ?_, ?_⟩
    · intro hdir
      rw [hdir] at ho
      exact absurd ho.2 (by omega)
    · intro hdir
      exact ⟨by simp [ho.1, ht1], fun _ => by simp⟩
  · -- fading, strictly between the bounds: pure clamped advance
    refine ⟨⟨by simp [clampQ_nonneg], by simp [clampQ_le_one]⟩, ?_, ?_⟩
    · intro hdir
      constructor
      · simp only
        apply clampQ_le_of_le _ ht0
        rw [hdir]
        push_cast
        linarith
      · intro h0
        simp only at h0
        exact absurd ⟨h0, by rw [hdir]; omega⟩ hz
    · intro hdir
      constructor
      · simp only
        apply le_clampQ_of_le _ ht1
        rw [hdir]
        push_cast
        linarith
      · intro h1
        simp only at h1
        exact absurd ⟨h1, by rw [hdir]; omega⟩ ho
  · -- steady unlocked cell begins a fade-out: fraction unchanged this frame
    refine ⟨⟨by simpa using ht0, by simpa using ht1⟩, ?_, ?_⟩
    · intro hdir
      have h0 : cell.fadeDir = 0 := not_not.mp hfd
      rw [hdir] at h0
      exact absurd h0 (by decide)
    · intro hdir
      have h0 : cell.fadeDir = 0 := not_not.mp hfd
      rw [hdir] at h0
      exact absurd h0 (by decide)
  · -- steady unlocked cell reschedules: fraction unchanged
    refine ⟨⟨by simpa using ht0, by simpa using ht1⟩, ?_, ?_⟩
    · intro hdir
      have h0 : cell.fadeDir = 0 := not_not.mp hfd
      rw [hdir] at h0
      exact absurd h0 (by decide)
    · intro hdir
      have h0 : cell.fadeDir = 0 := not_not.mp hfd
      rw [hdir] at h0
      exact absurd h0 (by decide)
  · -- steady cell, nothing due: unchanged
    refine ⟨⟨by simpa using ht0, by simpa using ht1⟩, ?_, ?_⟩
    · intro hdir
      have h0 : cell.fadeDir = 0 := not_not.mp hfd
      rw [hdir] at h0
      exact absurd h0 (by decide)
    · intro hdir
      have h0 : cell.fadeDir = 0 := not_not.mp hfd
      rw [hdir] at h0
      exact absurd h0 (by decide)

/-- Claim C8 witness: the theorem applied to `c8cell` with `dt = 1/10` and a
unit fade duration — the fraction stays in `[0,1]` and does not increase. -/
theorem fade_monotone_witness :
    (0 ≤ (updateLettersCell ⟨3, 7, 1, 6, 1/2, 1000, 0, 1, 1⟩ 0 (1/10) 0 0 0 'q' c8cell).fadeT ∧
      (updateLettersCell ⟨3, 7, 1, 6, 1/2, 1000, 0, 1, 1⟩ 0 (1/10) 0 0 0 'q' c8cell).fadeT ≤ 1) ∧
    (updateLettersCell ⟨3, 7, 1, 6, 1/2, 1000, 0, 1, 1⟩ 0 (1/10) 0 0 0 'q' c8cell).fadeT ≤
      c8cell.fadeT := by
  have h := fade_monotone ⟨3, 7, 1, 6, 1/2, 1000, 0, 1, 1⟩ 0 (1/10) 0 0 0 'q' c8cell
    (by norm_num) (by with_unfolding_all decide) (by with_unfolding_all decide)
    (by norm_num) (by with_unfolding_all decide) (by with_unfolding_all decide)
  exact ⟨h.1, (h.2.1 rfl).1⟩

/-- Claim C6 witness: the theorem applied to the dictionary `["cat"]` with the
member `"cat"` and the non-member `"ca"`. -/
theorem trie_walk_correct_witness :
    (∃ n, walkT (buildTrie ["cat"]) (String.toList "cat") = some n ∧ n.t = true) ∧
    (walkT (buildTrie ["cat"]) (String.toList "ca") = none ∨
      ∃ n, walkT (buildTrie ["cat"]) (String.toList "ca") = some n ∧ n.t = false) := by
  constructor
  · exact (trie_walk_correct ["cat"] "cat").1.mpr (by decide)
  · exact (trie_walk_correct ["cat"] "ca").2 (by decide)

end TextDiscovery
